import Mathlib

/-!
# Verification of the Ruffle lexical front end

Shallow embedding of `src/compiler/src/lexer.rs` and
`src/compiler/src/utils.rs`.

Sources are modelled as `List Char` (the repository assumes ASCII input, so
byte offsets and character offsets coincide).  The logos-generated scanner is
embedded as an explicit maximal-munch matcher: at each position every pattern
(fixed-text literal, regex literal class, skip class) is evaluated for its
longest match; the longest match wins, a fixed-text literal beats a regex
class on a length tie (logos priorities: a literal of length `n` has priority
`2*n`, each regex class here has a strictly smaller priority), and the skip
pattern, when it wins, emits nothing.  When no pattern matches, one character
is consumed and the default error `NonAsciiCharacter` is emitted, exactly as
logos recovers.  The driving loop of `lex_source` advances at least one
character per step; it is written with a fuel argument bounded by
`length + 1`, which therefore never runs out.
-/

namespace Ruffle

/-- Character class `[0-9]` of the regex patterns (ASCII codes 48..57). -/
def isDigitChar (c : Char) : Bool :=
  48 ≤ c.toNat && c.toNat ≤ 57

/-- Character class `[a-zA-Z]` (ASCII codes 97..122 and 65..90). -/
def isAlphaChar (c : Char) : Bool :=
  (97 ≤ c.toNat && c.toNat ≤ 122) || (65 ≤ c.toNat && c.toNat ≤ 90)

/-- Leading character class `[a-zA-Z_]` of the identifier regex. -/
def isIdentStart (c : Char) : Bool :=
  isAlphaChar c || c = '_'

/-- Continuation class `[a-zA-Z0-9_]` of the identifier regex. -/
def isIdentCont (c : Char) : Bool :=
  isAlphaChar c || isDigitChar c || c = '_'

/-- The skip class `[ \t\n\f]` (space, tab, newline, form feed). -/
def isSkipWs (c : Char) : Bool :=
  c = ' ' || c = '\t' || c = '\n' || c = '\x0c'

/-- Owned text, Rust `String` (the name `Text` avoids the clash with the
`Token.String` constructor). -/
abbrev Text := String

set_option maxHeartbeats 1600000 in
/-- `Token` from `lexer.rs`.  The `f32` payload of `Float` is abstracted as
the raw lexeme text (floating point is outside the embedding); no claim
inspects a float payload. -/
inductive Token where
  | Period | Comma | Semi | Bang | Question | Colon | ColonColon
  | LParen | RParen | LSquare | RSquare | LBrace | RBrace
  | StraightArrow | EqArrow
  | Plus | Minus | Star | Slash | Modulus
  | EqEq | EqEqEq | Ne | Nee | Less | LessEq | Greater | GreaterEq
  | AndAnd | OrOr
  | Eq | PlusEq | MinusEq | StarEq | SlashEq
  | Let | Fn | If | Else | While | For | Return | Class | Impl
  | Struct | Enum | SelfValue | Super | Use | Mod | Const | Static
  | Integer (value : Int)
  | Float (value : Text)
  | String (value : Text)
  | Ident (value : Text)
  deriving Repr

/-- Injective packing of a token into comparable components, used only to
give `Token` a decidable equality whose term stays shallow (a direct
two-scrutinee match over 56 constructors elaborates to a huge decision
tree). -/
def Token.encode : Token → Nat × Int × Text
  | .Period => (0, 0, "")
  | .Comma => (1, 0, "")
  | .Semi => (2, 0, "")
  | .Bang => (3, 0, "")
  | .Question => (4, 0, "")
  | .Colon => (5, 0, "")
  | .ColonColon => (6, 0, "")
  | .LParen => (7, 0, "")
  | .RParen => (8, 0, "")
  | .LSquare => (9, 0, "")
  | .RSquare => (10, 0, "")
  | .LBrace => (11, 0, "")
  | .RBrace => (12, 0, "")
  | .StraightArrow => (13, 0, "")
  | .EqArrow => (14, 0, "")
  | .Plus => (15, 0, "")
  | .Minus => (16, 0, "")
  | .Star => (17, 0, "")
  | .Slash => (18, 0, "")
  | .Modulus => (19, 0, "")
  | .EqEq => (20, 0, "")
  | .EqEqEq => (21, 0, "")
  | .Ne => (22, 0, "")
  | .Nee => (23, 0, "")
  | .Less => (24, 0, "")
  | .LessEq => (25, 0, "")
  | .Greater => (26, 0, "")
  | .GreaterEq => (27, 0, "")
  | .AndAnd => (28, 0, "")
  | .OrOr => (29, 0, "")
  | .Eq => (30, 0, "")
  | .PlusEq => (31, 0, "")
  | .MinusEq => (32, 0, "")
  | .StarEq => (33, 0, "")
  | .SlashEq => (34, 0, "")
  | .Let => (35, 0, "")
  | .Fn => (36, 0, "")
  | .If => (37, 0, "")
  | .Else => (38, 0, "")
  | .While => (39, 0, "")
  | .For => (40, 0, "")
  | .Return => (41, 0, "")
  | .Class => (42, 0, "")
  | .Impl => (43, 0, "")
  | .Struct => (44, 0, "")
  | .Enum => (45, 0, "")
  | .SelfValue => (46, 0, "")
  | .Super => (47, 0, "")
  | .Use => (48, 0, "")
  | .Mod => (49, 0, "")
  | .Const => (50, 0, "")
  | .Static => (51, 0, "")
  | .Integer v => (52, v, "")
  | .Float v => (53, 0, v)
  | .String v => (54, 0, v)
  | .Ident v => (55, 0, v)

/-- Partial inverse of `Token.encode`. -/
def Token.decode (k : Nat) (i : Int) (s : Text) : Option Token :=
  if k = 0 then some .Period
  else if k = 1 then some .Comma
  else if k = 2 then some .Semi
  else if k = 3 then some .Bang
  else if k = 4 then some .Question
  else if k = 5 then some .Colon
  else if k = 6 then some .ColonColon
  else if k = 7 then some .LParen
  else if k = 8 then some .RParen
  else if k = 9 then some .LSquare
  else if k = 10 then some .RSquare
  else if k = 11 then some .LBrace
  else if k = 12 then some .RBrace
  else if k = 13 then some .StraightArrow
  else if k = 14 then some .EqArrow
  else if k = 15 then some .Plus
  else if k = 16 then some .Minus
  else if k = 17 then some .Star
  else if k = 18 then some .Slash
  else if k = 19 then some .Modulus
  else if k = 20 then some .EqEq
  else if k = 21 then some .EqEqEq
  else if k = 22 then some .Ne
  else if k = 23 then some .Nee
  else if k = 24 then some .Less
  else if k = 25 then some .LessEq
  else if k = 26 then some .Greater
  else if k = 27 then some .GreaterEq
  else if k = 28 then some .AndAnd
  else if k = 29 then some .OrOr
  else if k = 30 then some .Eq
  else if k = 31 then some .PlusEq
  else if k = 32 then some .MinusEq
  else if k = 33 then some .StarEq
  else if k = 34 then some .SlashEq
  else if k = 35 then some .Let
  else if k = 36 then some .Fn
  else if k = 37 then some .If
  else if k = 38 then some .Else
  else if k = 39 then some .While
  else if k = 40 then some .For
  else if k = 41 then some .Return
  else if k = 42 then some .Class
  else if k = 43 then some .Impl
  else if k = 44 then some .Struct
  else if k = 45 then some .Enum
  else if k = 46 then some .SelfValue
  else if k = 47 then some .Super
  else if k = 48 then some .Use
  else if k = 49 then some .Mod
  else if k = 50 then some .Const
  else if k = 51 then some .Static
  else if k = 52 then some (.Integer i)
  else if k = 53 then some (.Float s)
  else if k = 54 then some (.String s)
  else if k = 55 then some (.Ident s)
  else none

instance : DecidableEq Token := fun a b =>
  if h : a.encode = b.encode then
    isTrue (by
      have ha : Token.decode a.encode.1 a.encode.2.1 a.encode.2.2 = some a := by
        cases a <;> rfl
      have hb : Token.decode b.encode.1 b.encode.2.1 b.encode.2.2 = some b := by
        cases b <;> rfl
      rw [h] at ha
      rw [hb] at ha
      exact (Option.some.inj ha).symm)
  else isFalse (fun he => h (by rw [he]))

/-- `LexingError` from `lexer.rs`. -/
inductive LexingError where
  | NonAsciiCharacter
  | InvalidInteger (reason : String)
  | InvalidFloat
  deriving DecidableEq, Repr

/-- The error kinds of `std::num::ParseIntError` relevant to `i32` parsing
(`IntErrorKind`). -/
inductive IntErrorKind where
  | empty
  | invalidDigit
  | posOverflow
  | negOverflow
  deriving DecidableEq, Repr

/-- `impl From<ParseIntError> for LexingError` from `lexer.rs`:
overflow kinds map to `InvalidInteger("overflow")`, everything else to
`InvalidInteger("other")`. -/
def lexingErrorOfIntError : IntErrorKind → LexingError
  | .posOverflow => .InvalidInteger "overflow"
  | .negOverflow => .InvalidInteger "overflow"
  | _ => .InvalidInteger "other"

/-- Digit value of a character, `char::to_digit(10)`. -/
def charDigit (c : Char) : Option Nat :=
  if isDigitChar c then some (c.toNat - 48) else none

/-- Accumulating loop of Rust `i32::from_str`: checked multiply-add per digit,
failing with the overflow kind matching the sign as soon as the accumulator
leaves the `i32` range. -/
def parseI32Aux (neg : Bool) : List Char → Int → Except IntErrorKind Int
  | [], acc => .ok acc
  | c :: rest, acc =>
    match charDigit c with
    | none => .error .invalidDigit
    | some d =>
      if neg then
        let acc' := acc * 10 - d
        if acc' < -2147483648 then .error .negOverflow
        else parseI32Aux neg rest acc'
      else
        let acc' := acc * 10 + d
        if 2147483647 < acc' then .error .posOverflow
        else parseI32Aux neg rest acc'

/-- Rust `str::parse::<i32>` (`from_str_radix` at radix 10): empty input is
`Empty`, an optional sign, a sign with no digits is `InvalidDigit`, then the
checked accumulation loop. -/
def parseI32 (s : List Char) : Except IntErrorKind Int :=
  match s with
  | [] => .error .empty
  | c :: digits =>
    if c = '+' then
      if digits = [] then .error .invalidDigit else parseI32Aux false digits 0
    else if c = '-' then
      if digits = [] then .error .invalidDigit else parseI32Aux true digits 0
    else parseI32Aux false (c :: digits) 0

/-- `Span` (`Range<usize>`): half-open byte range.  Rust's field `end` is
spelled `stop` (`end` is a Lean keyword). -/
structure Span where
  start : Nat
  stop : Nat
  deriving DecidableEq, Repr

/-- `SlicedToken` from `lexer.rs`: a token with its span and the source it
was cut from. -/
structure SlicedToken where
  token : Token
  span : Span
  source : List Char
  deriving DecidableEq, Repr

/-- `SlicedToken::slice`: `&self.source[self.span]`. -/
def SlicedToken.slice (st : SlicedToken) : List Char :=
  (st.source.drop st.span.start).take (st.span.stop - st.span.start)

/-- `SlicedError` from `lexer.rs`. -/
structure SlicedError where
  error : LexingError
  span : Span
  source : List Char
  deriving DecidableEq, Repr

/-- `SlicedError::slice`: `&self.source[self.span]`. -/
def SlicedError.slice (se : SlicedError) : List Char :=
  (se.source.drop se.span.start).take (se.span.stop - se.span.start)

/-- One element of the `Vec<Result<SlicedToken, SlicedError>>` returned by
`lex_source`. -/
inductive LexResult where
  | ok (t : SlicedToken)
  | error (e : SlicedError)
  deriving DecidableEq, Repr

/-- Span of a result, whichever side it is. -/
def LexResult.span : LexResult → Span
  | .ok t => t.span
  | .error e => e.span

/-- Source carried by a result. -/
def LexResult.source : LexResult → List Char
  | .ok t => t.source
  | .error e => e.source

/-- Slice of a result: `source[span]` on either side. -/
def LexResult.slice : LexResult → List Char
  | .ok t => t.slice
  | .error e => e.slice

/-- Outcome of one pattern match before it is wrapped with a span: a token,
an error from a callback, or skipped text. -/
inductive RawOut where
  | tok (t : Token)
  | err (e : LexingError)
  | skipped
  deriving DecidableEq, Repr

/-- The fixed-text (`#[token("...")]`) patterns of `Token`, in source order,
paired with their variants. -/
def fixedLits : List (List Char × Token) :=
  [(".".toList, .Period), (",".toList, .Comma), (";".toList, .Semi),
   ("!".toList, .Bang), ("?".toList, .Question), (":".toList, .Colon),
   ("::".toList, .ColonColon), ("(".toList, .LParen), (")".toList, .RParen),
   ("[".toList, .LSquare), ("]".toList, .RSquare), ("\x7b".toList, .LBrace),
   ("\x7d".toList, .RBrace), ("->".toList, .StraightArrow),
   ("=>".toList, .EqArrow),
   ("+".toList, .Plus), ("-".toList, .Minus), ("*".toList, .Star),
   ("/".toList, .Slash), ("%".toList, .Modulus),
   ("==".toList, .EqEq), ("===".toList, .EqEqEq), ("!=".toList, .Ne),
   ("!==".toList, .Nee), ("<".toList, .Less), ("<=".toList, .LessEq),
   (">".toList, .Greater), (">=".toList, .GreaterEq),
   ("&&".toList, .AndAnd), ("||".toList, .OrOr),
   ("=".toList, .Eq), ("+=".toList, .PlusEq), ("-=".toList, .MinusEq),
   ("*=".toList, .StarEq), ("/=".toList, .SlashEq),
   ("let".toList, .Let), ("fn".toList, .Fn), ("if".toList, .If),
   ("else".toList, .Else), ("while".toList, .While), ("for".toList, .For),
   ("return".toList, .Return), ("class".toList, .Class),
   ("impl".toList, .Impl), ("struct".toList, .Struct),
   ("enum".toList, .Enum), ("self".toList, .SelfValue),
   ("super".toList, .Super), ("use".toList, .Use), ("mod".toList, .Mod),
   ("const".toList, .Const), ("static".toList, .Static)]

/-- Fold step of `litMatch`: keep the candidate of maximal literal length
(earlier table entries win ties). -/
def litStep (cs : List Char) (best : Option (Nat × Token))
    (p : List Char × Token) : Option (Nat × Token) :=
  if p.1.isPrefixOf cs then
    match best with
    | none => some (p.1.length, p.2)
    | some (n, t) =>
      if n < p.1.length then some (p.1.length, p.2) else some (n, t)
  else best

/-- Longest fixed-text literal matching a prefix of `cs`, with its variant
(the first literal of maximal length in table order). -/
def litMatch (cs : List Char) : Option (Nat × Token) :=
  fixedLits.foldl (litStep cs) none

/-- Longest match of the integer regex `[0-9]+` at the head of `cs`. -/
def matchInteger (cs : List Char) : Option Nat :=
  match cs with
  | [] => none
  | c :: _ =>
    if isDigitChar c then some (cs.takeWhile isDigitChar).length else none

/-- Longest match of the float regex `[0-9]+\.[0-9]+` at the head of `cs`:
the maximal leading digit run, a mandatory dot, and a maximal nonempty
second digit run. -/
def matchFloat (cs : List Char) : Option Nat :=
  if (cs.takeWhile isDigitChar).length = 0 then none
  else
    match cs.drop (cs.takeWhile isDigitChar).length with
    | '.' :: rest =>
      if (rest.takeWhile isDigitChar).length = 0 then none
      else some ((cs.takeWhile isDigitChar).length + 1 +
        (rest.takeWhile isDigitChar).length)
    | _ => none

/-- Tail of the string regex after the opening quote:
`([^"\\]|\\.)*"`.  Returns the matched length including the closing quote;
an unescaped quote closes the literal, a backslash always escapes the
following character, end of input without a closing quote is no match. -/
def strTail : List Char → Option Nat
  | [] => none
  | [c] => if c = '"' then some 1 else none
  | c :: d :: rest =>
    if c = '"' then some 1
    else if c = '\\' then (strTail rest).map (· + 2)
    else (strTail (d :: rest)).map (· + 1)

/-- Longest match of the string regex `"([^"\\]|\\.)*"` at the head of
`cs`. -/
def matchString (cs : List Char) : Option Nat :=
  match cs with
  | [] => none
  | c :: rest => if c = '"' then (strTail rest).map (· + 1) else none

/-- Longest match of the identifier regex `[a-zA-Z_][a-zA-Z0-9_]*`. -/
def matchIdent (cs : List Char) : Option Nat :=
  match cs with
  | [] => none
  | c :: rest =>
    if isIdentStart c then some (1 + (rest.takeWhile isIdentCont).length)
    else none

/-- Longest match of the whitespace alternative `[ \t\n\f]+` of the skip
pattern. -/
def matchWs (cs : List Char) : Option Nat :=
  match cs with
  | [] => none
  | c :: _ =>
    if isSkipWs c then some (cs.takeWhile isSkipWs).length else none

/-- Longest match of the line-comment alternative `//.*` (`.` does not match
a newline). -/
def matchLineComment (cs : List Char) : Option Nat :=
  match cs with
  | [] => none
  | c :: rest =>
    if c = '/' ∧ rest.head? = some '/' then
      some (2 + (rest.tail.takeWhile (fun c => !(c = '\n'))).length)
    else none

/-- Distance to just past the first `*/` in the body of a block comment;
`none` when the comment is unterminated. -/
def findStarSlash : List Char → Option Nat
  | [] => none
  | c :: rest =>
    if c = '*' ∧ rest.head? = some '/' then some 2
    else (findStarSlash rest).map (· + 1)

/-- Longest match of the block-comment alternative
`/\*([^*]|\*+[^*/])*\*+/`: this regex requires a closing `*/`, and the match
ends at the first `*/` after the opening `/*`. -/
def matchBlockComment (cs : List Char) : Option Nat :=
  match cs with
  | [] => none
  | c :: rest =>
    if c = '/' ∧ rest.head? = some '*' then
      (findStarSlash rest.tail).map (· + 2)
    else none

/-- Larger of two optional match lengths (first wins a tie). -/
def maxOpt : Option Nat → Option Nat → Option Nat
  | none, b => b
  | some a, none => some a
  | some a, some b => if a < b then some b else some a

/-- Longest match of the whole skip pattern
`[ \t\n\f]+|//.*|/\*([^*]|\*+[^*/])*\*+/`. -/
def matchSkip (cs : List Char) : Option Nat :=
  maxOpt (matchWs cs) (maxOpt (matchLineComment cs) (matchBlockComment cs))

/-- Pick the longer of two candidates; the first argument wins a length tie
(used with the fixed-text candidate first: logos gives literals the higher
priority). -/
def preferLonger :
    Option (Nat × RawOut) → Option (Nat × RawOut) → Option (Nat × RawOut)
  | none, b => b
  | some a, none => some a
  | some a, some b => if a.1 < b.1 then some b else some a

/-- Fixed-text candidate at the head of `cs`. -/
def litCand (cs : List Char) : Option (Nat × RawOut) :=
  (litMatch cs).map (fun p => (p.1, RawOut.tok p.2))

/-- Integer candidate: the `[0-9]+` match with its callback
`lex.slice().parse::<i32>()`. -/
def intCand (cs : List Char) : Option (Nat × RawOut) :=
  (matchInteger cs).map (fun n =>
    (n, match parseI32 (cs.take n) with
        | .ok v => RawOut.tok (.Integer v)
        | .error k => RawOut.err (lexingErrorOfIntError k)))

/-- Float candidate (payload abstracted as the lexeme text). -/
def fltCand (cs : List Char) : Option (Nat × RawOut) :=
  (matchFloat cs).map (fun n =>
    (n, RawOut.tok (.Float (String.mk (cs.take n)))))

/-- String candidate: the callback `lex.slice()[1..lex.slice().len() - 1]`
strips exactly the opening and closing quote characters. -/
def strCand (cs : List Char) : Option (Nat × RawOut) :=
  (matchString cs).map (fun n =>
    (n, RawOut.tok (.String (String.mk (((cs.take n).drop 1).dropLast)))))

/-- Identifier candidate: the callback keeps the raw slice. -/
def idtCand (cs : List Char) : Option (Nat × RawOut) :=
  (matchIdent cs).map (fun n =>
    (n, RawOut.tok (.Ident (String.mk (cs.take n)))))

/-- Best token candidate at the head of `cs`: longest match wins, the
fixed-text candidate wins a length tie over every regex class. -/
def tokCands (cs : List Char) : Option (Nat × RawOut) :=
  preferLonger (litCand cs) (preferLonger (intCand cs)
    (preferLonger (fltCand cs) (preferLonger (strCand cs) (idtCand cs))))

/-- One scanning step at the head of `cs`: `none` at end of input, otherwise
the winning pattern's outcome and its length.  Regex tokens run their
callbacks on the matched lexeme (`lex.slice()`), exactly as in `lexer.rs`;
when nothing matches, one character yields the default error
`NonAsciiCharacter`. -/
def scanOne (cs : List Char) : Option (RawOut × Nat) :=
  match cs with
  | [] => none
  | _ :: _ =>
    match matchSkip cs, tokCands cs with
    | some ks, some nt =>
      if nt.1 < ks then some (.skipped, ks) else some (nt.2, nt.1)
    | some ks, none => some (.skipped, ks)
    | none, some nt => some (nt.2, nt.1)
    | none, none => some (.err .NonAsciiCharacter, 1)

/-- Driving loop of `lex_source`: repeatedly scan at the current position,
wrap token and error outcomes with their span and the source, and drop the
matched characters.  `fuel` bounds the number of steps; every step consumes
at least one character, so `source.length + 1` steps always suffice. -/
def lexLoop : Nat → List Char → Nat → List Char → List LexResult
  | 0, _, _, _ => []
  | fuel + 1, source, pos, rem =>
    match scanOne rem with
    | none => []
    | some (.skipped, len) => lexLoop fuel source (pos + len) (rem.drop len)
    | some (.tok t, len) =>
      .ok ⟨t, ⟨pos, pos + len⟩, source⟩ ::
        lexLoop fuel source (pos + len) (rem.drop len)
    | some (.err e, len) =>
      .error ⟨e, ⟨pos, pos + len⟩, source⟩ ::
        lexLoop fuel source (pos + len) (rem.drop len)

/-- `lex_source` from `lexer.rs`. -/
def lex_source (source : List Char) : List LexResult :=
  lexLoop (source.length + 1) source 0 source

/-- How a step outcome is wrapped into the emitted result (`lex_source`'s
`Ok`/`Err` arms); skipped text emits nothing. -/
def outResult (src : List Char) (pos len : Nat) : RawOut → Option LexResult
  | .tok t => some (.ok ⟨t, ⟨pos, pos + len⟩, src⟩)
  | .err e => some (.error ⟨e, ⟨pos, pos + len⟩, src⟩)
  | .skipped => none

/-- Span soundness of one emitted result: the span is inside the source,
`slice` recovers `source[span]`, and the result is exactly what scanning at
`span.start` produces from the lexeme of length `span.stop - span.start`. -/
def SpanSound (src : List Char) (r : LexResult) : Prop :=
  r.span.start ≤ r.span.stop ∧ r.span.stop ≤ src.length ∧
  r.source = src ∧
  r.slice = (src.drop r.span.start).take (r.span.stop - r.span.start) ∧
  ∃ out, scanOne (src.drop r.span.start) =
      some (out, r.span.stop - r.span.start) ∧
    outResult src r.span.start (r.span.stop - r.span.start) out = some r

/-- Ordering of two spans in the output stream: disjoint and strictly
advancing. -/
def spanRel (a b : LexResult) : Prop :=
  a.span.stop ≤ b.span.start ∧ a.span.start < b.span.start

instance : IsTrans LexResult spanRel :=
  ⟨fun _ _ _ hab hbc =>
    ⟨le_trans hab.1 (le_of_lt hbc.2), lt_trans hab.2 hbc.2⟩⟩

/-- Numeric value of a digit run (the mathematical reading of a `[0-9]+`
lexeme). -/
def digitsVal (ds : List Char) : Nat :=
  ds.foldl (fun a c => a * 10 + (c.toNat - 48)) 0

/-- Whether a literal's first character is a non-digit (used to show no
fixed-text literal can start where a digit run starts). -/
def headNotDigit (l : List Char) : Bool :=
  match l.head? with
  | some c => !(isDigitChar c)
  | none => false

/-- `rows_cols_index` loop body from `utils.rs`: walk the characters,
stopping when the enumeration index reaches the requested offset (here the
offset counts down), bumping the row on a newline and the column
otherwise. -/
def rowsColsGo : List Char → Nat → Nat → Nat → Nat × Nat
  | [], _, rows, cols => (rows, cols)
  | c :: cs, idx, rows, cols =>
    if idx = 0 then (rows, cols)
    else if c = '\n' then rowsColsGo cs (idx - 1) (rows + 1) 1
    else rowsColsGo cs (idx - 1) rows (cols + 1)

/-- `rows_cols_index` from `utils.rs`: 1-based row and column of a character
offset. -/
def rows_cols_index (input : List Char) (index : Nat) : Nat × Nat :=
  rowsColsGo input index 1 1

/-- `impl Display for Token` from `lexer.rs` (the `Float` arm shows the
abstracted payload text; no claim depends on it). -/
def displayToken : Token → Text
  | .Period => "."
  | .Comma => ","
  | .Semi => ";"
  | .Bang => "!"
  | .Question => "?"
  | .Colon => ":"
  | .ColonColon => "::"
  | .LParen => "("
  | .RParen => ")"
  | .LSquare => "["
  | .RSquare => "]"
  | .LBrace => "\x7b"
  | .RBrace => "\x7d"
  | .StraightArrow => "->"
  | .EqArrow => "=>"
  | .Plus => "+"
  | .Minus => "-"
  | .Star => "*"
  | .Slash => "/"
  | .Modulus => "%"
  | .EqEq => "=="
  | .EqEqEq => "==="
  | .Ne => "!="
  | .Nee => "!=="
  | .Less => "<"
  | .LessEq => "<="
  | .Greater => ">"
  | .GreaterEq => ">="
  | .AndAnd => "&&"
  | .OrOr => "||"
  | .Eq => "="
  | .PlusEq => "+="
  | .MinusEq => "-="
  | .StarEq => "*="
  | .SlashEq => "/="
  | .Let => "let"
  | .Fn => "fn"
  | .If => "if"
  | .Else => "else"
  | .While => "while"
  | .For => "for"
  | .Return => "return"
  | .Class => "class"
  | .Impl => "impl"
  | .Struct => "struct"
  | .Enum => "enum"
  | .SelfValue => "self"
  | .Super => "super"
  | .Use => "use"
  | .Mod => "mod"
  | .Const => "const"
  | .Static => "static"
  | .Integer v => toString v
  | .Float v => v
  | .String v => "str(\"" ++ v ++ "\")"
  | .Ident v => "ident(" ++ v ++ ")"

/-- The fixed-text (payload-free) variants of `Token`, in source order. -/
def fixedTokens : List Token :=
  [.Period, .Comma, .Semi, .Bang, .Question, .Colon, .ColonColon,
   .LParen, .RParen, .LSquare, .RSquare, .LBrace, .RBrace,
   .StraightArrow, .EqArrow,
   .Plus, .Minus, .Star, .Slash, .Modulus,
   .EqEq, .EqEqEq, .Ne, .Nee, .Less, .LessEq, .Greater, .GreaterEq,
   .AndAnd, .OrOr,
   .Eq, .PlusEq, .MinusEq, .StarEq, .SlashEq,
   .Let, .Fn, .If, .Else, .While, .For, .Return, .Class, .Impl,
   .Struct, .Enum, .SelfValue, .Super, .Use, .Mod, .Const, .Static]

/-! ## Match length bounds

Every pattern matches at least one and at most all remaining characters;
these bounds drive the progress and span invariants of the scanning loop. -/

lemma takeWhile_length_le (p : Char → Bool) (l : List Char) :
    (l.takeWhile p).length ≤ l.length := by
  induction l with
  | nil => simp
  | cons a as ih =>
    rw [List.takeWhile_cons]
    split
    · simpa using ih
    · simp

lemma isPrefixOf_length_le {l₁ l₂ : List Char}
    (h : l₁.isPrefixOf l₂ = true) : l₁.length ≤ l₂.length :=
  (List.isPrefixOf_iff_prefix.mp h).length_le

lemma fixedLits_ne_nil : ∀ p ∈ fixedLits, p.1 ≠ [] := by decide

lemma litStep_some {cs : List Char} {acc : Option (Nat × Token)}
    {p : List Char × Token} {n : Nat} {t : Token}
    (h : litStep cs acc p = some (n, t)) :
    acc = some (n, t) ∨
      (p.1.isPrefixOf cs = true ∧ p.1.length = n ∧ p.2 = t) := by
  unfold litStep at h
  split at h
  case isTrue hp =>
    cases acc with
    | none =>
      right
      simp only [Option.some.injEq, Prod.mk.injEq] at h
      exact ⟨hp, h.1, h.2⟩
    | some q =>
      obtain ⟨m, u⟩ := q
      simp only at h
      split at h
      · right
        simp only [Option.some.injEq, Prod.mk.injEq] at h
        exact ⟨hp, h.1, h.2⟩
      · left; exact h
  case isFalse hp => left; exact h

lemma litFold_some (cs : List Char) (l : List (List Char × Token)) :
    ∀ (acc : Option (Nat × Token)) (n : Nat) (t : Token),
      l.foldl (litStep cs) acc = some (n, t) →
      acc = some (n, t) ∨
        ∃ p ∈ l, p.1.isPrefixOf cs = true ∧ p.1.length = n ∧ p.2 = t := by
  induction l with
  | nil => intro acc n t h; left; exact h
  | cons q l' ih =>
    intro acc n t h
    rw [List.foldl_cons] at h
    rcases ih _ _ _ h with h' | ⟨p, hp, hpre⟩
    · rcases litStep_some h' with h'' | hq
      · left; exact h''
      · right; exact ⟨q, List.mem_cons_self _ _, hq⟩
    · right; exact ⟨p, List.mem_cons_of_mem _ hp, hpre⟩

lemma litMatch_some {cs : List Char} {n : Nat} {t : Token}
    (h : litMatch cs = some (n, t)) :
    ∃ p ∈ fixedLits, p.1.isPrefixOf cs = true ∧ p.1.length = n ∧ p.2 = t := by
  rcases litFold_some cs fixedLits none n t h with h' | h'
  · exact absurd h' (by simp)
  · exact h'

lemma litMatch_bounds {cs : List Char} {n : Nat} {t : Token}
    (h : litMatch cs = some (n, t)) : 1 ≤ n ∧ n ≤ cs.length := by
  obtain ⟨p, hp, hpre, hlen, -⟩ := litMatch_some h
  have h1 := isPrefixOf_length_le hpre
  have h2 : 0 < p.1.length := List.length_pos.mpr (fixedLits_ne_nil p hp)
  omega

lemma matchInteger_bounds {cs : List Char} {n : Nat}
    (h : matchInteger cs = some n) : 1 ≤ n ∧ n ≤ cs.length := by
  cases cs with
  | nil => simp [matchInteger] at h
  | cons c rest =>
    simp only [matchInteger] at h
    split at h
    case isTrue hd =>
      simp only [Option.some.injEq] at h
      rw [List.takeWhile_cons_of_pos hd] at h
      have := takeWhile_length_le isDigitChar rest
      simp only [List.length_cons] at h ⊢
      omega
    case isFalse hd => exact absurd h (by simp)

lemma matchFloat_bounds {cs : List Char} {n : Nat}
    (h : matchFloat cs = some n) : 1 ≤ n ∧ n ≤ cs.length := by
  unfold matchFloat at h
  split at h
  · exact absurd h (by simp)
  case isFalse hd1 =>
    split at h
    case h_1 rest heq =>
      split at h
      · exact absurd h (by simp)
      case isFalse hd2 =>
        simp only [Option.some.injEq] at h
        have hle1 := takeWhile_length_le isDigitChar cs
        have hlen := List.length_drop (cs.takeWhile isDigitChar).length cs
        rw [heq] at hlen
        have hle2 := takeWhile_length_le isDigitChar rest
        simp only [List.length_cons] at hlen
        omega
    case h_2 => exact absurd h (by simp)

lemma strTail_bounds_aux (k : Nat) : ∀ (cs : List Char), cs.length ≤ k →
    ∀ {n : Nat}, strTail cs = some n → 1 ≤ n ∧ n ≤ cs.length := by
  induction k with
  | zero =>
    intro cs hk n h
    rw [List.length_eq_zero.mp (Nat.le_zero.mp hk)] at h
    simp [strTail] at h
  | succ k ih =>
    intro cs hk n h
    rcases cs with - | ⟨c, rest0⟩
    · simp [strTail] at h
    rcases rest0 with - | ⟨d, rest⟩
    · simp only [strTail] at h
      split at h
      · simp only [Option.some.injEq] at h
        simp only [List.length_cons]
        omega
      · exact absurd h (by simp)
    · simp only [strTail] at h
      split at h
      · simp only [Option.some.injEq] at h
        simp only [List.length_cons]
        omega
      · split at h
        · rcases Option.map_eq_some'.mp h with ⟨m, hm, rfl⟩
          simp only [List.length_cons] at hk ⊢
          have := ih rest (by omega) hm
          omega
        · rcases Option.map_eq_some'.mp h with ⟨m, hm, rfl⟩
          simp only [List.length_cons] at hk ⊢
          have := ih (d :: rest) (by simp only [List.length_cons]; omega) hm
          simp only [List.length_cons] at this
          omega

lemma strTail_bounds {cs : List Char} {n : Nat}
    (h : strTail cs = some n) : 1 ≤ n ∧ n ≤ cs.length :=
  strTail_bounds_aux cs.length cs le_rfl h

lemma matchString_bounds {cs : List Char} {n : Nat}
    (h : matchString cs = some n) : 1 ≤ n ∧ n ≤ cs.length := by
  cases cs with
  | nil => simp [matchString] at h
  | cons c rest =>
    simp only [matchString] at h
    split at h
    · rcases Option.map_eq_some'.mp h with ⟨m, hm, rfl⟩
      have := strTail_bounds hm
      simp only [List.length_cons]
      omega
    · exact absurd h (by simp)

lemma matchIdent_bounds {cs : List Char} {n : Nat}
    (h : matchIdent cs = some n) : 1 ≤ n ∧ n ≤ cs.length := by
  cases cs with
  | nil => simp [matchIdent] at h
  | cons c rest =>
    simp only [matchIdent] at h
    split at h
    · simp only [Option.some.injEq] at h
      have := takeWhile_length_le isIdentCont rest
      simp only [List.length_cons]
      omega
    · exact absurd h (by simp)

lemma matchWs_bounds {cs : List Char} {n : Nat}
    (h : matchWs cs = some n) : 1 ≤ n ∧ n ≤ cs.length := by
  cases cs with
  | nil => simp [matchWs] at h
  | cons c rest =>
    simp only [matchWs] at h
    split at h
    case isTrue hd =>
      simp only [Option.some.injEq] at h
      rw [List.takeWhile_cons_of_pos hd] at h
      have := takeWhile_length_le isSkipWs rest
      simp only [List.length_cons] at h ⊢
      omega
    case isFalse hd => exact absurd h (by simp)

lemma matchLineComment_bounds {cs : List Char} {n : Nat}
    (h : matchLineComment cs = some n) : 1 ≤ n ∧ n ≤ cs.length := by
  cases cs with
  | nil => simp [matchLineComment] at h
  | cons c rest =>
    simp only [matchLineComment] at h
    split at h
    case isTrue hc =>
      have hne : rest ≠ [] := by
        intro he; rw [he] at hc; simp at hc
      have h1 : 1 ≤ rest.length := List.length_pos.mpr hne
      have h2 := takeWhile_length_le (fun c => !(c = '\n')) rest.tail
      have h3 : rest.tail.length = rest.length - 1 := List.length_tail rest
      simp only [Option.some.injEq] at h
      simp only [List.length_cons]
      omega
    case isFalse => exact absurd h (by simp)

lemma findStarSlash_bounds (cs : List Char) : ∀ {n : Nat},
    findStarSlash cs = some n → 1 ≤ n ∧ n ≤ cs.length := by
  induction cs with
  | nil => intro n h; simp [findStarSlash] at h
  | cons c rest ih =>
    intro n h
    simp only [findStarSlash] at h
    split at h
    case isTrue hc =>
      have hne : rest ≠ [] := by
        intro he
        rw [he] at hc
        simp at hc
      have := List.length_pos.mpr hne
      simp only [Option.some.injEq] at h
      simp only [List.length_cons]
      omega
    case isFalse hc =>
      rcases Option.map_eq_some'.mp h with ⟨m, hm, rfl⟩
      have := ih hm
      simp only [List.length_cons]
      omega

lemma matchBlockComment_bounds {cs : List Char} {n : Nat}
    (h : matchBlockComment cs = some n) : 1 ≤ n ∧ n ≤ cs.length := by
  cases cs with
  | nil => simp [matchBlockComment] at h
  | cons c rest =>
    simp only [matchBlockComment] at h
    split at h
    case isTrue hc =>
      have hne : rest ≠ [] := by
        intro he; rw [he] at hc; simp at hc
      have h1 : 1 ≤ rest.length := List.length_pos.mpr hne
      have h3 : rest.tail.length = rest.length - 1 := List.length_tail rest
      rcases Option.map_eq_some'.mp h with ⟨m, hm, rfl⟩
      have := findStarSlash_bounds rest.tail hm
      simp only [List.length_cons]
      omega
    case isFalse => exact absurd h (by simp)

lemma maxOpt_eq_or {a b : Option Nat} {n : Nat}
    (h : maxOpt a b = some n) : a = some n ∨ b = some n := by
  cases a with
  | none => right; exact h
  | some x =>
    cases b with
    | none => left; exact h
    | some y =>
      simp only [maxOpt] at h
      split at h
      · right; exact h
      · left; exact h

lemma matchSkip_bounds {cs : List Char} {n : Nat}
    (h : matchSkip cs = some n) : 1 ≤ n ∧ n ≤ cs.length := by
  unfold matchSkip at h
  rcases maxOpt_eq_or h with h' | h'
  · exact matchWs_bounds h'
  · rcases maxOpt_eq_or h' with h'' | h''
    · exact matchLineComment_bounds h''
    · exact matchBlockComment_bounds h''

lemma preferLonger_eq_or {a b : Option (Nat × RawOut)} {x : Nat × RawOut}
    (h : preferLonger a b = some x) : a = some x ∨ b = some x := by
  cases a with
  | none => right; exact h
  | some p =>
    cases b with
    | none => left; exact h
    | some q =>
      simp only [preferLonger] at h
      split at h
      · right; exact h
      · left; exact h

lemma litCand_bounds {cs : List Char} {x : Nat × RawOut}
    (h : litCand cs = some x) : 1 ≤ x.1 ∧ x.1 ≤ cs.length := by
  rcases Option.map_eq_some'.mp h with ⟨⟨n, t⟩, hm, rfl⟩
  exact litMatch_bounds hm

lemma intCand_bounds {cs : List Char} {x : Nat × RawOut}
    (h : intCand cs = some x) : 1 ≤ x.1 ∧ x.1 ≤ cs.length := by
  rcases Option.map_eq_some'.mp h with ⟨n, hm, rfl⟩
  exact matchInteger_bounds hm

lemma fltCand_bounds {cs : List Char} {x : Nat × RawOut}
    (h : fltCand cs = some x) : 1 ≤ x.1 ∧ x.1 ≤ cs.length := by
  rcases Option.map_eq_some'.mp h with ⟨n, hm, rfl⟩
  exact matchFloat_bounds hm

lemma strCand_bounds {cs : List Char} {x : Nat × RawOut}
    (h : strCand cs = some x) : 1 ≤ x.1 ∧ x.1 ≤ cs.length := by
  rcases Option.map_eq_some'.mp h with ⟨n, hm, rfl⟩
  exact matchString_bounds hm

lemma idtCand_bounds {cs : List Char} {x : Nat × RawOut}
    (h : idtCand cs = some x) : 1 ≤ x.1 ∧ x.1 ≤ cs.length := by
  rcases Option.map_eq_some'.mp h with ⟨n, hm, rfl⟩
  exact matchIdent_bounds hm

lemma tokCands_bounds {cs : List Char} {x : Nat × RawOut}
    (h : tokCands cs = some x) : 1 ≤ x.1 ∧ x.1 ≤ cs.length := by
  unfold tokCands at h
  rcases preferLonger_eq_or h with h | h
  · exact litCand_bounds h
  rcases preferLonger_eq_or h with h | h
  · exact intCand_bounds h
  rcases preferLonger_eq_or h with h | h
  · exact fltCand_bounds h
  rcases preferLonger_eq_or h with h | h
  · exact strCand_bounds h
  · exact idtCand_bounds h

/-- Every successful scanning step consumes at least one and at most all
remaining characters. -/
lemma scanOne_bounds {cs : List Char} {o : RawOut} {n : Nat}
    (h : scanOne cs = some (o, n)) : 1 ≤ n ∧ n ≤ cs.length := by
  cases cs with
  | nil => simp [scanOne] at h
  | cons c rest =>
    simp only [scanOne] at h
    split at h
    case h_1 ks nt hsk htk =>
      split at h
      · simp only [Option.some.injEq, Prod.mk.injEq] at h
        rw [← h.2]
        exact matchSkip_bounds hsk
      · simp only [Option.some.injEq, Prod.mk.injEq] at h
        rw [← h.2]
        exact tokCands_bounds htk
    case h_2 ks hsk htk =>
      simp only [Option.some.injEq, Prod.mk.injEq] at h
      rw [← h.2]
      exact matchSkip_bounds hsk
    case h_3 nt hsk htk =>
      simp only [Option.some.injEq, Prod.mk.injEq] at h
      rw [← h.2]
      exact tokCands_bounds htk
    case h_4 hsk htk =>
      simp only [Option.some.injEq, Prod.mk.injEq] at h
      rw [← h.2]
      simp

/-! ## Span soundness -/

/-- A token emitted at `pos` from a match of length `len` is span-sound. -/
lemma SpanSound_tok (src : List Char) (pos len : Nat) (t : Token)
    (hscan : scanOne (src.drop pos) = some (.tok t, len))
    (hpos : pos + len ≤ src.length) :
    SpanSound src (.ok ⟨t, ⟨pos, pos + len⟩, src⟩) := by
  have hsub : pos + len - pos = len := by omega
  refine ⟨Nat.le_add_right pos len, hpos, rfl, rfl, .tok t, ?_, ?_⟩
  · show scanOne (src.drop pos) = some (RawOut.tok t, pos + len - pos)
    rw [hsub]; exact hscan
  · show outResult src pos (pos + len - pos) (RawOut.tok t) =
      some (.ok ⟨t, ⟨pos, pos + len⟩, src⟩)
    rw [hsub]
    rfl

/-- An error emitted at `pos` from a match of length `len` is span-sound. -/
lemma SpanSound_err (src : List Char) (pos len : Nat) (e : LexingError)
    (hscan : scanOne (src.drop pos) = some (.err e, len))
    (hpos : pos + len ≤ src.length) :
    SpanSound src (.error ⟨e, ⟨pos, pos + len⟩, src⟩) := by
  have hsub : pos + len - pos = len := by omega
  refine ⟨Nat.le_add_right pos len, hpos, rfl, rfl, .err e, ?_, ?_⟩
  · show scanOne (src.drop pos) = some (RawOut.err e, pos + len - pos)
    rw [hsub]; exact hscan
  · show outResult src pos (pos + len - pos) (RawOut.err e) =
      some (.error ⟨e, ⟨pos, pos + len⟩, src⟩)
    rw [hsub]
    rfl

/-- Invariant of the scanning loop: called at position `pos` on the
corresponding suffix, every emitted result is span-sound, starts at or after
`pos`, and the stream is ordered. -/
lemma lexLoop_sound (src : List Char) : ∀ (fuel : Nat) (pos : Nat)
    (rem : List Char), rem = src.drop pos → pos ≤ src.length →
    (∀ r ∈ lexLoop fuel src pos rem, SpanSound src r ∧ pos ≤ r.span.start)
    ∧ List.Chain' spanRel (lexLoop fuel src pos rem) := by
  intro fuel
  induction fuel with
  | zero => intro pos rem h1 h2; simp [lexLoop]
  | succ fuel ih =>
    intro pos rem h1 h2
    cases hscan : scanOne rem with
    | none => simp [lexLoop, hscan]
    | some res =>
      obtain ⟨out, len⟩ := res
      obtain ⟨hlen1, hlen2⟩ := scanOne_bounds hscan
      have hrlen : rem.length = src.length - pos := by
        rw [h1]; exact List.length_drop pos src
      have hpos' : pos + len ≤ src.length := by omega
      have hdrop : rem.drop len = src.drop (pos + len) := by
        rw [h1, List.drop_drop]
      have IH := ih (pos + len) (rem.drop len) hdrop hpos'
      have hscan' : scanOne (src.drop pos) = some (out, len) := by
        rw [← h1]; exact hscan
      cases out with
      | skipped =>
        simp only [lexLoop, hscan]
        exact ⟨fun r hr => ⟨(IH.1 r hr).1, by have := (IH.1 r hr).2; omega⟩,
          IH.2⟩
      | tok t =>
        simp only [lexLoop, hscan]
        constructor
        · intro r hr
          rcases List.mem_cons.mp hr with rfl | hr'
          · exact ⟨SpanSound_tok src pos len t hscan' hpos', le_rfl⟩
          · exact ⟨(IH.1 r hr').1, by have := (IH.1 r hr').2; omega⟩
        · rw [List.chain'_cons']
          refine ⟨?_, IH.2⟩
          intro y hy
          have hy2 : pos + len ≤ y.span.start :=
            (IH.1 y (List.mem_of_mem_head? hy)).2
          exact ⟨hy2, lt_of_lt_of_le (Nat.lt_add_of_pos_right hlen1) hy2⟩
      | err e =>
        simp only [lexLoop, hscan]
        constructor
        · intro r hr
          rcases List.mem_cons.mp hr with rfl | hr'
          · exact ⟨SpanSound_err src pos len e hscan' hpos', le_rfl⟩
          · exact ⟨(IH.1 r hr').1, by have := (IH.1 r hr').2; omega⟩
        · rw [List.chain'_cons']
          refine ⟨?_, IH.2⟩
          intro y hy
          have hy2 : pos + len ≤ y.span.start :=
            (IH.1 y (List.mem_of_mem_head? hy)).2
          exact ⟨hy2, lt_of_lt_of_le (Nat.lt_add_of_pos_right hlen1) hy2⟩

/-- C1: span soundness and ordering of `lex_source`: every result's span
satisfies `start ≤ stop ≤ source.length`, the result carries the source, its
`slice` is exactly `source[span]`, and scanning the source at `span.start`
matches exactly `span.stop - span.start` characters and produces exactly
this result (so the slice is the lexeme that produced it); moreover the
spans of the output are pairwise disjoint and strictly increasing by
`start`. -/
theorem c1_span_soundness (src : List Char) :
    (∀ r ∈ lex_source src, SpanSound src r) ∧
    List.Pairwise spanRel (lex_source src) := by
  have h := lexLoop_sound src (src.length + 1) 0 src
    (List.drop_zero src).symm (Nat.zero_le _)
  exact ⟨fun r hr => (h.1 r hr).1, List.chain'_iff_pairwise.mp h.2⟩

/-- C1 witness: span soundness of the one token produced from `"==="`. -/
theorem c1_witness :
    SpanSound "===".toList (.ok ⟨.EqEqEq, ⟨0, 3⟩, "===".toList⟩) :=
  (c1_span_soundness "===".toList).1 _ (by decide)

/-! ## String lexeme decomposition (C7) -/

/-- The text matched by the tail of the string regex ends with the closing
quote. -/
lemma strTail_take_aux (k : Nat) : ∀ (cs : List Char), cs.length ≤ k →
    ∀ {m : Nat}, strTail cs = some m →
    ∃ mid, cs.take m = mid ++ ['"'] := by
  induction k with
  | zero =>
    intro cs hk m h
    rw [List.length_eq_zero.mp (Nat.le_zero.mp hk)] at h
    simp [strTail] at h
  | succ k ih =>
    intro cs hk m h
    rcases cs with - | ⟨c, rest0⟩
    · simp [strTail] at h
    rcases rest0 with - | ⟨d, rest⟩
    · simp only [strTail] at h
      split at h
      case isTrue hc =>
        simp only [Option.some.injEq] at h
        subst hc
        exact ⟨[], by rw [← h]; rfl⟩
      case isFalse => exact absurd h (by simp)
    · simp only [strTail] at h
      split at h
      case isTrue hc =>
        simp only [Option.some.injEq] at h
        subst hc
        exact ⟨[], by rw [← h]; rfl⟩
      case isFalse hc =>
        split at h
        case isTrue hc' =>
          rcases Option.map_eq_some'.mp h with ⟨m', hm, rfl⟩
          simp only [List.length_cons] at hk
          obtain ⟨mid, hmid⟩ := ih rest (by omega) hm
          refine ⟨c :: d :: mid, ?_⟩
          simp only [List.take_succ_cons, hmid, List.cons_append]
        case isFalse hc' =>
          rcases Option.map_eq_some'.mp h with ⟨m', hm, rfl⟩
          simp only [List.length_cons] at hk
          obtain ⟨mid, hmid⟩ := ih (d :: rest) (by simp; omega) hm
          refine ⟨c :: mid, ?_⟩
          simp only [List.take_succ_cons, hmid, List.cons_append]

/-- C7: string literal decoding: every lexeme matched by the string pattern
is an opening quote, an inner text, and a closing quote, and the produced
`String` token's payload is exactly that inner text (quotes stripped,
nothing else changed); concretely, `"a\nb"` keeps its backslash
uninterpreted in the payload. -/
theorem c7_string_decoding :
    (∀ (cs : List Char) (n : Nat), matchString cs = some n →
      ∃ mid, cs.take n = '"' :: (mid ++ ['"']) ∧
        strCand cs = some (n, .tok (.String (String.mk mid)))) ∧
    lex_source "\"a\\nb\"".toList =
      [.ok ⟨.String "a\\nb", ⟨0, 6⟩, "\"a\\nb\"".toList⟩] := by
  refine ⟨?_, by decide⟩
  intro cs n h
  have hstr := h
  rcases cs with - | ⟨c, rest⟩
  · simp [matchString] at h
  · simp only [matchString] at h
    split at h
    case isTrue hc =>
      rcases Option.map_eq_some'.mp h with ⟨m, hm, rfl⟩
      obtain ⟨mid, hmid⟩ := strTail_take_aux rest.length rest le_rfl hm
      subst hc
      refine ⟨mid, ?_, ?_⟩
      · simp only [List.take_succ_cons, hmid]
      · unfold strCand
        rw [hstr]
        simp only [Option.map_some', Option.some.injEq, Prod.mk.injEq,
          true_and]
        simp only [List.take_succ_cons, hmid, List.drop_succ_cons,
          List.drop_zero]
        rw [List.dropLast_concat]
    case isFalse => exact absurd h (by simp)

/-- C7 witness: the lexeme `"ab"` decomposes around its quotes and decodes
to payload `ab`. -/
theorem c7_witness :
    ∃ mid, "\"ab\"".toList.take 4 = '"' :: (mid ++ ['"']) ∧
      strCand "\"ab\"".toList =
        some (4, .tok (.String (String.mk mid))) :=
  c7_string_decoding.1 "\"ab\"".toList 4 (by decide)

/-! ## Position resolver lemmas -/

/-- Past the end of the input, the countdown index never reaches zero, so the
scan is the same as scanning with the index pinned to the length. -/
lemma rowsColsGo_clamp (l : List Char) : ∀ (idx r c : Nat),
    l.length ≤ idx → rowsColsGo l idx r c = rowsColsGo l l.length r c := by
  induction l with
  | nil => intro idx r c _; rfl
  | cons a as ih =>
    intro idx r c h
    simp only [List.length_cons] at h
    have h0 : ¬ idx = 0 := by omega
    have h1 : as.length ≤ idx - 1 := by omega
    simp only [rowsColsGo, h0, if_false, Nat.succ_ne_zero,
      Nat.add_sub_cancel]
    by_cases ha : a = '\n' <;> simp [ha, ih _ _ _ h1]

/-! ## Claim theorems (first group) -/

/-- C2: maximal munch with longest-literal priority: `"==="` lexes to the
single token `EqEqEq` (not `EqEq` then `Eq`), and `"!=="` lexes to the
single token `Nee` (not `Bang` then `EqEq`). -/
theorem c2_longest_match :
    lex_source "===".toList = [.ok ⟨.EqEqEq, ⟨0, 3⟩, "===".toList⟩] ∧
    lex_source "!==".toList = [.ok ⟨.Nee, ⟨0, 3⟩, "!==".toList⟩] := by
  decide

/-- C3: keyword versus identifier disambiguation: a lexeme exactly equal to
a keyword literal (`"self"`, `"let"`) is that keyword token, while
`"selfish"` is one `Ident("selfish")`, not `SelfValue` followed by
`Ident("ish")`. -/
theorem c3_keyword_vs_identifier :
    lex_source "selfish".toList =
      [.ok ⟨.Ident "selfish", ⟨0, 7⟩, "selfish".toList⟩] ∧
    lex_source "self".toList = [.ok ⟨.SelfValue, ⟨0, 4⟩, "self".toList⟩] ∧
    lex_source "let".toList = [.ok ⟨.Let, ⟨0, 3⟩, "let".toList⟩] := by
  decide

/-- C4 counterexample: the claim says a source ending in an unterminated
block comment (`"/*a"`) emits no tokens and no errors for the comment's
content; in fact the skip regex requires a closing `*/`, so the scanner
falls back to the `/` literal and the comment text is tokenized: three
tokens are emitted. -/
theorem c4_counterexample :
    lex_source "/*a".toList =
      [.ok ⟨.Slash, ⟨0, 1⟩, "/*a".toList⟩,
       .ok ⟨.Star, ⟨1, 2⟩, "/*a".toList⟩,
       .ok ⟨.Ident "a", ⟨2, 3⟩, "/*a".toList⟩] ∧
    lex_source "/*a".toList ≠ [] := by
  decide

/-- C4 (amended): an unterminated block comment is not skipped: the opening
delimiter lexes as `Slash` then `Star` and the comment text is tokenized
normally, while a terminated block comment `/* ... */` is skipped
entirely. -/
theorem c4_unterminated_block_comment :
    lex_source "/*a".toList =
      [.ok ⟨.Slash, ⟨0, 1⟩, "/*a".toList⟩,
       .ok ⟨.Star, ⟨1, 2⟩, "/*a".toList⟩,
       .ok ⟨.Ident "a", ⟨2, 3⟩, "/*a".toList⟩] ∧
    lex_source "/* a */ x".toList =
      [.ok ⟨.Ident "x", ⟨8, 9⟩, "/* a */ x".toList⟩] := by
  decide

/-- C5: the position resolver is 1-based; on `"Hello\nWorld\nRust!"` offset
0 resolves to (1,1), offset 6 to (2,1), offset 12 to (3,1); and any offset
at or beyond the input length resolves to the position immediately past the
last character (the resolution at offset `length`), not an error. -/
theorem c5_rows_cols_index :
    rows_cols_index "Hello\nWorld\nRust!".toList 0 = (1, 1) ∧
    rows_cols_index "Hello\nWorld\nRust!".toList 6 = (2, 1) ∧
    rows_cols_index "Hello\nWorld\nRust!".toList 12 = (3, 1) ∧
    ∀ (input : List Char) (index : Nat), input.length ≤ index →
      rows_cols_index input index = rows_cols_index input input.length := by
  refine ⟨by decide, by decide, by decide, ?_⟩
  intro input index h
  exact rowsColsGo_clamp input index 1 1 h

/-- C5 witness: offset 100 into `"Hello"` resolves like offset 5, the
position just past the last character. -/
theorem c5_witness :
    rows_cols_index "Hello".toList 100 =
      rows_cols_index "Hello".toList "Hello".toList.length :=
  c5_rows_cols_index.2.2.2 "Hello".toList 100 (by decide)

/-- C6: the tokenizer records one error for a malformed lexeme and keeps
scanning: `"let x = @;"` yields exactly five results, `Let`, `Ident "x"`,
`Eq`, one error at the position of the `@`, and `Semi`. -/
theorem c6_error_resumption :
    lex_source "let x = @;".toList =
      [.ok ⟨.Let, ⟨0, 3⟩, "let x = @;".toList⟩,
       .ok ⟨.Ident "x", ⟨4, 5⟩, "let x = @;".toList⟩,
       .ok ⟨.Eq, ⟨6, 7⟩, "let x = @;".toList⟩,
       .error ⟨.NonAsciiCharacter, ⟨8, 9⟩, "let x = @;".toList⟩,
       .ok ⟨.Semi, ⟨9, 10⟩, "let x = @;".toList⟩] := by
  decide

/-- C9: round-trip of fixed-text tokens: every payload-free variant renders
to exactly its literal from the token table, and lexing that rendering
yields exactly that variant back, spanning the whole input. -/
theorem c9_round_trip : ∀ t ∈ fixedTokens,
    ((displayToken t).toList, t) ∈ fixedLits ∧
    lex_source (displayToken t).toList =
      [.ok ⟨t, ⟨0, (displayToken t).length⟩, (displayToken t).toList⟩] := by
  decide

/-- C9 witness: the round-trip at the keyword `let`. -/
theorem c9_witness :
    ((displayToken Token.Let).toList, Token.Let) ∈ fixedLits ∧
    lex_source (displayToken Token.Let).toList =
      [.ok ⟨Token.Let, ⟨0, (displayToken Token.Let).length⟩,
        (displayToken Token.Let).toList⟩] :=
  c9_round_trip Token.Let (by decide)

/-! ## Digit runs: integer decoding (C8) and error taxonomy (C10) -/

lemma digit_toNat {c : Char} (hc : isDigitChar c = true) :
    48 ≤ c.toNat ∧ c.toNat ≤ 57 := by
  simpa only [isDigitChar, Bool.and_eq_true, decide_eq_true_eq] using hc

lemma digit_ne {c x : Char} (hc : isDigitChar c = true)
    (hx : x.toNat < 48 ∨ 57 < x.toNat) : ¬ c = x := by
  intro he
  obtain ⟨h1, h2⟩ := digit_toNat hc
  subst he
  omega

lemma digit_not_identStart {c : Char} (hc : isDigitChar c = true) :
    isIdentStart c = false := by
  obtain ⟨h1, h2⟩ := digit_toNat hc
  have hu : ¬ c = '_' := by
    intro he
    have : c.toNat = 95 := by rw [he]; rfl
    omega
  simp only [isIdentStart, isAlphaChar, Bool.or_eq_false_iff,
    Bool.and_eq_false_iff, decide_eq_false_iff_not]
  exact ⟨⟨Or.inl (by omega), Or.inl (by omega)⟩, hu⟩

lemma digit_not_skipWs {c : Char} (hc : isDigitChar c = true) :
    isSkipWs c = false := by
  obtain ⟨h1, h2⟩ := digit_toNat hc
  have hsp : ¬ c = ' ' := by
    intro he; have : c.toNat = 32 := by rw [he]; rfl
    omega
  have hta : ¬ c = '\t' := by
    intro he; have : c.toNat = 9 := by rw [he]; rfl
    omega
  have hnl : ¬ c = '\n' := by
    intro he; have : c.toNat = 10 := by rw [he]; rfl
    omega
  have hff : ¬ c = '\x0c' := by
    intro he; have : c.toNat = 12 := by rw [he]; rfl
    omega
  simp [isSkipWs, hsp, hta, hnl, hff]

lemma take_takeWhile_length (p : Char → Bool) (l : List Char) :
    l.take ((l.takeWhile p).length) = l.takeWhile p := by
  induction l with
  | nil => rfl
  | cons a as ih =>
    rw [List.takeWhile_cons]
    split
    · simpa [List.take_succ_cons] using ih
    · rfl

lemma fixedLits_heads : fixedLits.all (fun p => headNotDigit p.1) = true := by
  decide

lemma litMatch_digit_none {c : Char} {rest : List Char}
    (hc : isDigitChar c = true) : litMatch (c :: rest) = none := by
  cases hlm : litMatch (c :: rest) with
  | none => rfl
  | some q =>
    obtain ⟨m, t⟩ := q
    obtain ⟨p, hp, hpre, -, -⟩ := litMatch_some hlm
    rcases hp1 : p.1 with - | ⟨hd, tl⟩
    · exact absurd hp1 (fixedLits_ne_nil p hp)
    · rw [hp1] at hpre
      have hhd : hd = c :=
        (List.cons_prefix_cons.mp (List.isPrefixOf_iff_prefix.mp hpre)).1
      have hhead := List.all_eq_true.mp fixedLits_heads p hp
      rw [hp1] at hhead
      simp only [headNotDigit, List.head?_cons, Bool.not_eq_true'] at hhead
      rw [hhd, hc] at hhead
      exact absurd hhead (by simp)

lemma matchInteger_take {cs : List Char} {m : Nat}
    (hm : matchInteger cs = some m) :
    cs.take m = cs.takeWhile isDigitChar ∧ cs.take m ≠ [] ∧
    ∀ c ∈ cs.take m, isDigitChar c = true := by
  cases cs with
  | nil => simp [matchInteger] at hm
  | cons c rest =>
    simp only [matchInteger] at hm
    split at hm
    case isTrue hc =>
      simp only [Option.some.injEq] at hm
      subst hm
      refine ⟨take_takeWhile_length _ _, ?_, ?_⟩
      · rw [take_takeWhile_length, List.takeWhile_cons_of_pos hc]
        simp
      · rw [take_takeWhile_length]
        intro x hx
        exact List.mem_takeWhile_imp hx
    case isFalse => exact absurd hm (by simp)

/-- The digit-run value only grows as more digits are folded in. -/
lemma digitsFold_le (ds : List Char) : ∀ acc : Nat,
    acc ≤ ds.foldl (fun a c => a * 10 + (c.toNat - 48)) acc := by
  induction ds with
  | nil => intro acc; simp
  | cons c rest ih =>
    intro acc
    rw [List.foldl_cons]
    have h1 : acc ≤ acc * 10 + (c.toNat - 48) := by omega
    exact le_trans h1 (ih _)

/-- One step of the checked accumulation on a digit. -/
lemma parseI32Aux_step (c : Char) (rest : List Char) (acc : Nat)
    (hc : isDigitChar c = true) :
    parseI32Aux false (c :: rest) ↑acc =
      if 2147483647 < acc * 10 + (c.toNat - 48) then .error .posOverflow
      else parseI32Aux false rest ↑(acc * 10 + (c.toNat - 48)) := by
  have hcast : ((acc : Int) * 10 + ↑(c.toNat - 48)) =
      ↑(acc * 10 + (c.toNat - 48)) := by push_cast; ring
  simp only [parseI32Aux, charDigit, hc, if_true, Bool.false_eq_true,
    if_false, hcast]
  by_cases hov : 2147483647 < acc * 10 + (c.toNat - 48)
  · rw [if_pos (by exact_mod_cast hov), if_pos hov]
  · rw [if_neg (by exact_mod_cast hov), if_neg hov]

/-- The checked accumulation over an all-digit run computes the run's value,
or fails with `posOverflow` exactly when that value leaves the `i32`
range. -/
lemma parseI32Aux_digits (ds : List Char) : ∀ (acc : Nat),
    (∀ c ∈ ds, isDigitChar c = true) → acc ≤ 2147483647 →
    parseI32Aux false ds ↑acc =
      if ds.foldl (fun a c => a * 10 + (c.toNat - 48)) acc ≤ 2147483647
      then .ok ↑(ds.foldl (fun a c => a * 10 + (c.toNat - 48)) acc)
      else .error .posOverflow := by
  induction ds with
  | nil =>
    intro acc hall hacc
    rw [List.foldl_nil, if_pos hacc]
    rfl
  | cons c rest ih =>
    intro acc hall hacc
    have hc : isDigitChar c = true := hall c (List.mem_cons_self _ _)
    rw [parseI32Aux_step c rest acc hc, List.foldl_cons]
    by_cases hov : 2147483647 < acc * 10 + (c.toNat - 48)
    · rw [if_pos hov]
      have hfin := digitsFold_le rest (acc * 10 + (c.toNat - 48))
      rw [if_neg (by omega)]
    · rw [if_neg hov]
      exact ih (acc * 10 + (c.toNat - 48))
        (fun x hx => hall x (List.mem_cons_of_mem _ hx)) (by omega)

/-- `str::parse::<i32>` on a nonempty all-digit lexeme: the value when it
fits, `posOverflow` otherwise — never `Empty` or `InvalidDigit`. -/
lemma parseI32_digits (ds : List Char) (hne : ds ≠ [])
    (hall : ∀ c ∈ ds, isDigitChar c = true) :
    parseI32 ds =
      if digitsVal ds ≤ 2147483647 then .ok ↑(digitsVal ds)
      else .error .posOverflow := by
  rcases ds with - | ⟨c, rest⟩
  · exact absurd rfl hne
  have hc : isDigitChar c = true := hall c (List.mem_cons_self _ _)
  have hplus : ¬ c = '+' := digit_ne hc (Or.inl (by decide))
  have hminus : ¬ c = '-' := digit_ne hc (Or.inl (by decide))
  simp only [parseI32, if_neg hplus, if_neg hminus]
  exact parseI32Aux_digits (c :: rest) 0 hall (by omega)

/-- A nonempty all-digit input is scanned as one integer lexeme covering the
whole input, running the `i32` parse callback on it. -/
lemma scanOne_digits (c : Char) (rest : List Char)
    (hall : ∀ x ∈ c :: rest, isDigitChar x = true) :
    scanOne (c :: rest) =
      some ((match parseI32 (c :: rest) with
             | .ok v => RawOut.tok (.Integer v)
             | .error k => RawOut.err (lexingErrorOfIntError k)),
            (c :: rest).length) := by
  have hc : isDigitChar c = true := hall c (List.mem_cons_self _ _)
  have hds : (c :: rest).takeWhile isDigitChar = c :: rest :=
    List.takeWhile_eq_self_iff.mpr hall
  have hint : matchInteger (c :: rest) = some (c :: rest).length := by
    simp [matchInteger, hc, hds]
  have hlit : litMatch (c :: rest) = none := litMatch_digit_none hc
  have hflt : matchFloat (c :: rest) = none := by
    rw [matchFloat.eq_def]
    simp [hds, List.drop_length]
  have hstr : matchString (c :: rest) = none := by
    have hq : ¬ c = '"' := digit_ne hc (Or.inl (by decide))
    simp [matchString, hq]
  have hidt : matchIdent (c :: rest) = none := by
    simp [matchIdent, digit_not_identStart hc]
  have hws : matchWs (c :: rest) = none := by
    simp [matchWs, digit_not_skipWs hc]
  have hlc : matchLineComment (c :: rest) = none := by
    have hq : ¬ c = '/' := digit_ne hc (Or.inl (by decide))
    simp [matchLineComment, hq]
  have hbc : matchBlockComment (c :: rest) = none := by
    have hq : ¬ c = '/' := digit_ne hc (Or.inl (by decide))
    simp [matchBlockComment, hq]
  have hskip : matchSkip (c :: rest) = none := by
    simp [matchSkip, hws, hlc, hbc, maxOpt]
  have htake : (c :: rest).take (c :: rest).length = c :: rest :=
    List.take_length _
  simp only [scanOne, hskip, tokCands, litCand, intCand, fltCand, strCand,
    idtCand, hlit, hint, hflt, hstr, hidt, Option.map_none',
    Option.map_some', preferLonger, htake]

/-- The scanning loop on an exhausted suffix emits nothing. -/
lemma lexLoop_nil (fuel : Nat) (src : List Char) (pos : Nat) :
    lexLoop fuel src pos [] = [] := by
  cases fuel <;> simp [lexLoop, scanOne]

/-- A source whose first scan consumes everything and yields a token lexes
to exactly that one token. -/
lemma lex_source_single_tok (src : List Char) (t : Token)
    (hscan : scanOne src = some (.tok t, src.length)) :
    lex_source src = [.ok ⟨t, ⟨0, src.length⟩, src⟩] := by
  unfold lex_source
  simp only [lexLoop, hscan, List.drop_length, lexLoop_nil, Nat.zero_add]

/-- A source whose first scan consumes everything and yields an error lexes
to exactly that one error. -/
lemma lex_source_single_err (src : List Char) (e : LexingError)
    (hscan : scanOne src = some (.err e, src.length)) :
    lex_source src = [.error ⟨e, ⟨0, src.length⟩, src⟩] := by
  unfold lex_source
  simp only [lexLoop, hscan, List.drop_length, lexLoop_nil, Nat.zero_add]

/-- C8: integer literal decoding: a nonempty all-digit source whose value
fits in `i32` lexes to the one `Integer` token carrying that value; one
whose value exceeds the `i32` range lexes to the one
`InvalidInteger("overflow")` error; and the `ParseIntError` conversion sends
every non-overflow kind to `InvalidInteger("other")`. -/
theorem c8_integer_decoding :
    (∀ (ds : List Char), ds ≠ [] → (∀ c ∈ ds, isDigitChar c = true) →
      (digitsVal ds ≤ 2147483647 →
        lex_source ds =
          [.ok ⟨.Integer ↑(digitsVal ds), ⟨0, ds.length⟩, ds⟩]) ∧
      (2147483647 < digitsVal ds →
        lex_source ds =
          [.error ⟨.InvalidInteger "overflow", ⟨0, ds.length⟩, ds⟩])) ∧
    lexingErrorOfIntError .empty = .InvalidInteger "other" ∧
    lexingErrorOfIntError .invalidDigit = .InvalidInteger "other" ∧
    lexingErrorOfIntError .posOverflow = .InvalidInteger "overflow" := by
  refine ⟨?_, rfl, rfl, rfl⟩
  intro ds hne hall
  rcases ds with - | ⟨c, rest⟩
  · exact absurd rfl hne
  have hparse := parseI32_digits (c :: rest) hne hall
  have hscan := scanOne_digits c rest hall
  constructor
  · intro hle
    rw [if_pos hle] at hparse
    refine lex_source_single_tok (c :: rest) _ ?_
    rw [hscan, hparse]
  · intro hgt
    rw [if_neg (by omega)] at hparse
    refine lex_source_single_err (c :: rest) _ ?_
    rw [hscan, hparse]
    rfl

/-- C8 witness: `"42"` decodes to `Integer 42`, and `"9999999999"` to the
overflow error. -/
theorem c8_witness :
    lex_source "42".toList =
      [.ok ⟨.Integer ↑(digitsVal "42".toList), ⟨0, "42".toList.length⟩,
        "42".toList⟩] ∧
    lex_source "9999999999".toList =
      [.error ⟨.InvalidInteger "overflow", ⟨0, "9999999999".toList.length⟩,
        "9999999999".toList⟩] :=
  ⟨(c8_integer_decoding.1 "42".toList (by decide) (by decide)).1 (by decide),
   (c8_integer_decoding.1 "9999999999".toList (by decide) (by decide)).2
     (by decide)⟩

lemma parseI32_digit_err {cs : List Char} {m : Nat} {k : IntErrorKind}
    (hm : matchInteger cs = some m)
    (hparse : parseI32 (cs.take m) = .error k) : k = .posOverflow := by
  obtain ⟨-, hne, hall⟩ := matchInteger_take hm
  have h := parseI32_digits (cs.take m) hne hall
  rw [hparse] at h
  split at h
  · exact absurd h (by simp)
  · simpa using h

lemma tokCands_err {cs : List Char} {e : LexingError} {n : Nat}
    (h : tokCands cs = some (n, .err e)) :
    e = .InvalidInteger "overflow" := by
  unfold tokCands at h
  rcases preferLonger_eq_or h with h | h
  · rcases Option.map_eq_some'.mp h with ⟨p, -, hp⟩
    simp at hp
  rcases preferLonger_eq_or h with h | h
  · rcases Option.map_eq_some'.mp h with ⟨m, hm, hp⟩
    rcases hparse : parseI32 (cs.take m) with k | v
    · rw [hparse] at hp
      simp only [Prod.mk.injEq, RawOut.err.injEq] at hp
      rw [← hp.2, parseI32_digit_err hm hparse]
      rfl
    · rw [hparse] at hp
      simp at hp
  rcases preferLonger_eq_or h with h | h
  · rcases Option.map_eq_some'.mp h with ⟨m, -, hp⟩
    simp at hp
  rcases preferLonger_eq_or h with h | h
  · rcases Option.map_eq_some'.mp h with ⟨m, -, hp⟩
    simp at hp
  · rcases Option.map_eq_some'.mp h with ⟨m, -, hp⟩
    simp at hp

/-- Any error a scanning step emits is the catch-all `NonAsciiCharacter` or
the integer overflow error. -/
lemma scanOne_err {cs : List Char} {e : LexingError} {n : Nat}
    (h : scanOne cs = some (.err e, n)) :
    e = .NonAsciiCharacter ∨ e = .InvalidInteger "overflow" := by
  cases cs with
  | nil => simp [scanOne] at h
  | cons c rest =>
    simp only [scanOne] at h
    split at h
    case h_1 ks nt hsk htk =>
      split at h
      · simp at h
      · simp only [Option.some.injEq, Prod.mk.injEq] at h
        right
        exact @tokCands_err (c :: rest) e nt.1 (by rw [← h.1, htk])
    case h_2 ks hsk htk => simp at h
    case h_3 nt hsk htk =>
      simp only [Option.some.injEq, Prod.mk.injEq] at h
      right
      exact @tokCands_err (c :: rest) e nt.1 (by rw [← h.1, htk])
    case h_4 hsk htk =>
      simp only [Option.some.injEq, Prod.mk.injEq] at h
      left
      injection h.1 with h3
      exact h3.symm

/-- C10: every `InvalidInteger` error emitted by `lex_source` carries the
reason `"overflow"`: the `"other"` branch of the `ParseIntError` conversion
is unreachable from the lexer, because a `[0-9]+` lexeme is nonempty and
sign-free, so its `i32` parse can only fail by positive overflow. -/
theorem c10_invalid_integer_is_overflow (src : List Char) :
    ∀ (se : SlicedError) (reason : Text),
      LexResult.error se ∈ lex_source src →
      se.error = .InvalidInteger reason → reason = "overflow" := by
  intro se reason hmem herr
  have h := lexLoop_sound src (src.length + 1) 0 src
    (List.drop_zero src).symm (Nat.zero_le _)
  obtain ⟨-, -, -, -, out, hscan, hout⟩ := (h.1 _ hmem).1
  cases out with
  | tok t => simp [outResult] at hout
  | skipped => simp [outResult] at hout
  | err e =>
    simp only [outResult, Option.some.injEq] at hout
    have hse : se.error = e := by
      injection hout with h2
      rw [← h2]
    rcases scanOne_err hscan with h' | h'
    · rw [hse, h'] at herr
      exact absurd herr (by simp)
    · rw [hse, h'] at herr
      injection herr with h3
      exact h3.symm

/-- C10 witness: the overflow error emitted for `"9999999999"` indeed has
reason `"overflow"`. -/
theorem c10_witness : ("overflow" : Text) = "overflow" :=
  c10_invalid_integer_is_overflow "9999999999".toList
    ⟨.InvalidInteger "overflow", ⟨0, 10⟩, "9999999999".toList⟩ "overflow"
    (by decide) (by decide)

end Ruffle
